import Mathlib

/-!
Shallow embedding of the RustAMX crate (Apple AMX bindings): the operand
encoders, the raw instruction words, hardware detection, the RAII guard and
the tiled SGEMM kernel, together with theorems checking the specification's
claims about them.  Machine `u64` arithmetic is modelled over `Nat` (the
encoders only combine masked fields, so no wrap-around occurs); `f32` values
are modelled by exact rationals `ℚ`.
-/

set_option maxHeartbeats 1000000

/-- Detected AMX version (src/detect.rs and lib.rs, `enum AmxVersion`). -/
inductive AmxVersion where
  | M1
  | M2
  | M3
  | M4
  | Unknown
deriving DecidableEq, Repr

/-- src/ops.rs: `const ADDR_MASK: u64 = (1 << 56) - 1`. -/
def Ops.ADDR_MASK : Nat := (1 <<< 56) - 1

/-- src/ops.rs `encode_xy`: load/store operand for X/Y registers. -/
def Ops.encode_xy (addr reg : Nat) (pair : Bool) : Nat :=
  (pair.toNat <<< 62) ||| ((reg &&& 0x7) <<< 56) ||| (addr &&& Ops.ADDR_MASK)

/-- src/ops.rs `encode_z`: load/store operand for Z registers. -/
def Ops.encode_z (addr row : Nat) (pair : Bool) : Nat :=
  (pair.toNat <<< 62) ||| ((row &&& 0x3F) <<< 56) ||| (addr &&& Ops.ADDR_MASK)

/-- src/ops.rs `encode_fma`: FMA/MAC operand. -/
def Ops.encode_fma (x_off y_off z_row : Nat) (vector_mode : Bool) : Nat :=
  (vector_mode.toNat <<< 63) ||| ((z_row &&& 0x3F) <<< 20)
    ||| ((x_off &&& 0x1FF) <<< 10) ||| (y_off &&& 0x1FF)

/-- src/lib.rs `ops` module: `const ADDR_MASK: u64 = (1 << 56) - 1`. -/
def LibOps.ADDR_MASK : Nat := (1 <<< 56) - 1

/-- src/lib.rs `ops::encode_xy_ldst`. -/
def LibOps.encode_xy_ldst (addr reg : Nat) (pair : Bool) : Nat :=
  (pair.toNat <<< 62) ||| ((reg &&& 0x7) <<< 56) ||| (addr &&& LibOps.ADDR_MASK)

/-- src/lib.rs `ops::encode_z_ldst`. -/
def LibOps.encode_z_ldst (addr row : Nat) (pair : Bool) : Nat :=
  (pair.toNat <<< 62) ||| ((row &&& 0x3F) <<< 56) ||| (addr &&& LibOps.ADDR_MASK)

/-- src/lib.rs `ops::encode_fma`. -/
def LibOps.encode_fma (x_off y_off z_row : Nat) (vector_mode : Bool) : Nat :=
  (vector_mode.toNat <<< 63) ||| ((z_row &&& 0x3F) <<< 20)
    ||| ((x_off &&& 0x1FF) <<< 10) ||| (y_off &&& 0x1FF)

/-- src/raw.rs: `const AMX_OP_BASE: u32 = 0x00201000`. -/
def AMX_OP_BASE : Nat := 0x00201000

/-- The `define_amx_op` macro body: `const OP: u32 = AMX_OP_BASE + (opcode << 5)`. -/
def amx_op_word (opcode : Nat) : Nat := AMX_OP_BASE + (opcode <<< 5)

def amx_ldx_word : Nat := amx_op_word 0
def amx_ldy_word : Nat := amx_op_word 1
def amx_stx_word : Nat := amx_op_word 2
def amx_sty_word : Nat := amx_op_word 3
def amx_ldz_word : Nat := amx_op_word 4
def amx_stz_word : Nat := amx_op_word 5
def amx_ldzi_word : Nat := amx_op_word 6
def amx_stzi_word : Nat := amx_op_word 7
def amx_extrx_word : Nat := amx_op_word 8
def amx_extry_word : Nat := amx_op_word 9
def amx_fma64_word : Nat := amx_op_word 10
def amx_fms64_word : Nat := amx_op_word 11
def amx_fma32_word : Nat := amx_op_word 12
def amx_fms32_word : Nat := amx_op_word 13
def amx_mac16_word : Nat := amx_op_word 14
def amx_fma16_word : Nat := amx_op_word 15
def amx_fms16_word : Nat := amx_op_word 16
def amx_vecint_word : Nat := amx_op_word 18
def amx_vecfp_word : Nat := amx_op_word 19
def amx_matint_word : Nat := amx_op_word 20
def amx_matfp_word : Nat := amx_op_word 21
def amx_genlut_word : Nat := amx_op_word 22

/-- One emitted machine instruction: either a literal `nop` or an encoded
`.word` instruction. -/
inductive Asm where
  | nop
  | insn (word : Nat)
deriving DecidableEq, Repr

/-- src/raw.rs `amx_set`: three `nop`s, then the enable word
`AMX_OP_BASE + (17 << 5)`. -/
def amx_set_asm : List Asm :=
  [Asm.nop, Asm.nop, Asm.nop, Asm.insn (AMX_OP_BASE + (17 <<< 5))]

/-- src/raw.rs `amx_clr`: three `nop`s, then the disable word
`AMX_OP_BASE + (17 << 5) + 1`. -/
def amx_clr_asm : List Asm :=
  [Asm.nop, Asm.nop, Asm.nop, Asm.insn (AMX_OP_BASE + (17 <<< 5) + 1)]

/-- Rust `str::contains`: substring containment. -/
def scontains (s pat : String) : Bool := decide (pat.toList <:+: s.toList)

/-- src/detect.rs `detect_internal`, parametrised by the result of the
external `sysctl_string(c"machdep.cpu.brand_string")` call. -/
def Detect.detect_internal (brand? : Option String) : Option AmxVersion :=
  match brand? with
  | none => none
  | some brand =>
    if ¬ scontains brand "Apple" then none
    else some
      (if scontains brand "M1" then AmxVersion.M1
       else if scontains brand "M2" then AmxVersion.M2
       else if scontains brand "M3" then AmxVersion.M3
       else if scontains brand "M4" then AmxVersion.M4
       else AmxVersion.Unknown)

/-- src/lib.rs `detect_internal` (the near-duplicate copy), parametrised the
same way. -/
def Lib.detect_internal (brand? : Option String) : Option AmxVersion :=
  match brand? with
  | none => none
  | some brand =>
    if ¬ scontains brand "Apple" then none
    else some
      (if scontains brand "M1" then AmxVersion.M1
       else if scontains brand "M2" then AmxVersion.M2
       else if scontains brand "M3" then AmxVersion.M3
       else if scontains brand "M4" then AmxVersion.M4
       else AmxVersion.Unknown)

/-- `is_available()`, with the cached `detect()` result passed explicitly:
`detect().is_some()`. -/
def is_available (detect : Option AmxVersion) : Bool := detect.isSome

/-- `AmxGuard::try_new()`: `None` when unavailable, otherwise a guard after
issuing `amx_set`; the guard value carries the instructions it issued. -/
def AmxGuard.try_new (detect : Option AmxVersion) : Option (List Asm) :=
  if is_available detect then some amx_set_asm else none

/-- `AmxGuard::new()`: panics (modelled as `none`) when unavailable,
otherwise issues `amx_set`. -/
def AmxGuard.new (detect : Option AmxVersion) : Option (List Asm) :=
  if is_available detect then some amx_set_asm else none

/-- `impl Drop for AmxGuard`: dropping a guard issues `amx_clr`. -/
def AmxGuard.drop : List Asm := amx_clr_asm

/-- Model of `f32` values: exact rationals (claims about the kernel are
stated for the exact-arithmetic hardware model). -/
abbrev Val : Type := ℚ

/-- The AMX register files visible to the SGEMM kernel: X and Y hold eight
64-byte registers (16 `f32` each), Z holds 64 rows of 16 `f32`. -/
structure Machine where
  x : Fin 8 → Fin 16 → Val
  y : Fin 8 → Fin 16 → Val
  z : Fin 64 → Fin 16 → Val

/-- One issued hardware instruction, as observed in the trace. -/
inductive Event where
  | set
  | clr
  | ldx
  | ldy
  | ldz (row : Nat)
  | stz (row : Nat)
  | fma32
deriving DecidableEq, Repr

/-- `ops::ldx`: load 16 floats into X register `reg` (index masked to 3 bits
by `encode_xy`). -/
def Machine.ldx (m : Machine) (data : Fin 16 → Val) (reg : Nat) : Machine :=
  { m with x := fun r => if r.val = reg % 8 then data else m.x r }

/-- `ops::ldy`: load 16 floats into Y register `reg`. -/
def Machine.ldy (m : Machine) (data : Fin 16 → Val) (reg : Nat) : Machine :=
  { m with y := fun r => if r.val = reg % 8 then data else m.y r }

/-- `ops::ldz`: load 16 floats into Z row `row` (masked to 6 bits by
`encode_z`). -/
def Machine.ldz (m : Machine) (data : Fin 16 → Val) (row : Nat) : Machine :=
  { m with z := fun r => if r.val = row % 64 then data else m.z r }

/-- `ops::stz`: read Z row `row` back to memory. -/
def Machine.stz (m : Machine) (row : Nat) : Fin 16 → Val :=
  m.z ⟨row % 64, Nat.mod_lt _ (by norm_num)⟩

/-- `ops::fma32(0, 0, 0, false)` under the documented hardware model:
`Z[p*4][q] += Y[p] × X[q]` for all `p, q` in `0..16` (X, Y taken at offset
0, i.e. register 0). -/
def Machine.fma32 (m : Machine) : Machine :=
  { m with z := fun r q =>
      if r.val % 4 = 0 then
        m.z r q + m.y 0 ⟨r.val / 4, by have := r.isLt; omega⟩ * m.x 0 q
      else m.z r q }

/-- A borrowed `&[f32]` slice: its contents and its length. -/
structure Slice where
  data : Nat → Val
  len : Nat

/-- State threaded through the kernel loops: register files, the output
buffer, and the trace of issued instructions. -/
structure St where
  m : Machine
  c : Slice
  tr : List Event

/-- The zero-padded 16-float scratch row holding the clipped C-tile row
`row` (`let mut tmp = [0.0f32; 16]; tmp[..load_len].copy_from_slice(..)`). -/
def Sgemm.seedVec (c : Slice) (n i j row : Nat) : Fin 16 → Val :=
  fun t => if t.val < min 16 (n - j) then c.data ((i + row) * n + j + t.val) else 0

/-- One iteration of the seed loop (src/lib.rs:294-302): zero-pad the clipped
row of the C tile into a 16-float scratch buffer and `ldz` it into Z row
`row * 4`. -/
def Sgemm.seedRow (n i j row : Nat) (s : St) : St :=
  { s with m := s.m.ldz (Sgemm.seedVec s.c n i j row) (row * 4),
           tr := s.tr ++ [Event.ldz (row * 4)] }

/-- The seed loop: `for row in 0..16.min(n - i)`. -/
def Sgemm.seed (n i j : Nat) (s : St) : St :=
  (List.range (min 16 (n - i))).foldl (fun s row => Sgemm.seedRow n i j row s) s

/-- The gathered column `kk` of the A row-tile (`a_col[row] = a[(i + row) * n
+ k + kk]`, zero-padded), as a function of the reduction index `m = k + kk`. -/
def Sgemm.aCol (a : Slice) (n i m : Nat) : Fin 16 → Val :=
  fun t => if t.val < min 16 (n - i) then a.data ((i + t.val) * n + m) else 0

/-- The gathered row `kk` of the B column-tile (`b_row[..b_len]` copied from
`b[(k + kk) * n + j ..]`, zero-padded), as a function of `m = k + kk`. -/
def Sgemm.bRow (b : Slice) (n j m : Nat) : Fin 16 → Val :=
  fun t => if t.val < min 16 (n - j) then b.data (m * n + j + t.val) else 0

/-- One iteration of the inner accumulate loop (src/lib.rs:306-323): gather
column `kk` of the A tile into Y0, row `kk` of the B tile into X0, then issue
`fma32(0, 0, 0, false)`. -/
def Sgemm.accumStep (a b : Slice) (n i j k kk : Nat) (s : St) : St :=
  { m := ((s.m.ldy (Sgemm.aCol a n i (k + kk)) 0).ldx (Sgemm.bRow b n j (k + kk)) 0).fma32,
    c := s.c, tr := s.tr ++ [Event.ldy, Event.ldx, Event.fma32] }

/-- The list of tile origins produced by `(0..n).step_by(16)`. -/
def Sgemm.tileOrigins (n : Nat) : List Nat :=
  (List.range ((n + 15) / 16)).map (fun t => t * 16)

/-- The accumulate loops: `for k in (0..n).step_by(16)`,
`for kk in 0..16.min(n - k)`. -/
def Sgemm.accum (a b : Slice) (n i j : Nat) (s : St) : St :=
  (Sgemm.tileOrigins n).foldl
    (fun s k =>
      (List.range (min 16 (n - k))).foldl
        (fun s kk => Sgemm.accumStep a b n i j k kk s) s)
    s

/-- `c_row[..store_len].copy_from_slice(&tmp[..store_len])`: overwrite `len`
elements starting at `start` with the scratch vector `v` (`len ≤ 16` at
every call site). -/
def writeRow (c : Slice) (start len : Nat) (v : Fin 16 → Val) : Slice :=
  { c with data := fun idx =>
      (if h : start ≤ idx ∧ idx - start < min len 16 then
        v ⟨idx - start, Nat.lt_of_lt_of_le h.2 (Nat.min_le_right len 16)⟩
      else c.data idx) }

/-- One iteration of the drain loop (src/lib.rs:327-334): `stz` Z row
`row * 4` into a scratch buffer, then copy the clipped prefix back into C. -/
def Sgemm.drainRow (n i j row : Nat) (s : St) : St :=
  let tmp := s.m.stz (row * 4)
  { s with c := writeRow s.c ((i + row) * n + j) (min 16 (n - j)) tmp,
           tr := s.tr ++ [Event.stz (row * 4)] }

/-- The drain loop: `for row in 0..16.min(n - i)`. -/
def Sgemm.drain (n i j : Nat) (s : St) : St :=
  (List.range (min 16 (n - i))).foldl (fun s row => Sgemm.drainRow n i j row s) s

/-- The body of one `(i, j)` tile iteration: seed, accumulate, drain. -/
def Sgemm.tile (a b : Slice) (n i j : Nat) (s : St) : St :=
  Sgemm.drain n i j (Sgemm.accum a b n i j (Sgemm.seed n i j s))

/-- The two outer tile loops of `matmul`. -/
def Sgemm.tiles (a b : Slice) (n : Nat) (s : St) : St :=
  (Sgemm.tileOrigins n).foldl
    (fun s i => (Sgemm.tileOrigins n).foldl (fun s j => Sgemm.tile a b n i j s) s)
    s

/-- `c.fill(0.0)`: zero every element of the slice. -/
def fill0 (c : Slice) : Slice :=
  { len := c.len, data := fun idx => if idx < c.len then 0 else c.data idx }

/-- Result of a `matmul` call: whether it panicked (and with which message),
the final output slice, and the instruction trace. -/
structure MatmulOut where
  panicked : Option String
  c : Slice
  tr : List Event

/-- src/lib.rs `sgemm::matmul`, parametrised by the initial register-file
state and the cached `detect()` result.  The asserts run first (a panic is
modelled as `some msg` with `c` unmodified and an empty trace), then `n = 0`
returns early, then C is zeroed, `amx_set` issued, the tiles processed and
`amx_clr` issued. -/
def Sgemm.matmul (m : Machine) (detect : Option AmxVersion) (a b c : Slice)
    (n : Nat) : MatmulOut :=
  if is_available detect = false then ⟨some "AMX not available", c, []⟩
  else if a.len ≠ n * n then ⟨some "A must be n×n", c, []⟩
  else if b.len ≠ n * n then ⟨some "B must be n×n", c, []⟩
  else if c.len ≠ n * n then ⟨some "C must be n×n", c, []⟩
  else if n = 0 then ⟨none, c, []⟩
  else
    let s := Sgemm.tiles a b n ⟨m, fill0 c, [Event.set]⟩
    ⟨none, s.c, s.tr ++ [Event.clr]⟩

/-- Result of a `sgemm_raw` call: panic status, the memory reachable through
the `c` pointer, and the instruction trace. -/
structure RawOut where
  panicked : Option String
  c : Nat → Val
  tr : List Event

/-- src/lib.rs `sgemm::sgemm_raw`: early return when `size == 0` or AMX is
unavailable, otherwise build the three `size*size` slices and delegate to
`matmul`. -/
def Sgemm.sgemm_raw (m : Machine) (detect : Option AmxVersion)
    (a b c : Nat → Val) (size : Nat) : RawOut :=
  if size = 0 ∨ is_available detect = false then ⟨none, c, []⟩
  else
    let out := Sgemm.matmul m detect ⟨a, size * size⟩ ⟨b, size * size⟩
      ⟨c, size * size⟩ size
    ⟨out.panicked, out.c.data, out.tr⟩

/-- The coprocessor enabled/disabled state after a trace of instructions. -/
def enabledAfter (init : Bool) (tr : List Event) : Bool :=
  tr.foldl
    (fun e ev =>
      match ev with
      | Event.set => true
      | Event.clr => false
      | _ => e)
    init

/-- `a` is the `n × n` identity matrix (row-major). -/
def Sgemm.isIdentity (a : Slice) (n : Nat) : Prop :=
  ∀ i k : Nat, i < n → k < n → a.data (i * n + k) = if i = k then 1 else 0

/-- An all-zero register-file state (used to instantiate theorems). -/
def mach0 : Machine := ⟨fun _ _ => 0, fun _ _ => 0, fun _ _ => 0⟩

/-- An empty slice (used to instantiate theorems). -/
def emptySlice : Slice := ⟨fun _ => 0, 0⟩

/-- An all-ones slice of length 1 (used to instantiate theorems). -/
def oneSlice : Slice := ⟨fun _ => 1, 1⟩

/-- An all-fives slice of length 1 (used to instantiate theorems). -/
def fiveSlice : Slice := ⟨fun _ => 5, 1⟩

/-- An all-sevens slice of length 1 (used to instantiate theorems). -/
def sevenSlice : Slice := ⟨fun _ => 7, 1⟩

/-- Key bit-packing fact: or-ing a shifted field onto a value that fits below
the shift is addition. -/
theorem shiftLeft_or_eq_add : ∀ n a b : Nat, b < 2 ^ n → a <<< n ||| b = a * 2 ^ n + b := by
  intro n
  induction n with
  | zero =>
    intro a b hb
    have hb0 : b = 0 := by simpa using hb
    subst hb0
    simp [Nat.shiftLeft_eq]
  | succ n ih =>
    intro a b hb
    have hdiv : a <<< (n + 1) / 2 = a <<< n := by
      rw [Nat.shiftLeft_eq, Nat.shiftLeft_eq, pow_succ, ← Nat.mul_assoc,
        Nat.mul_div_cancel _ (by norm_num)]
    have hx2 : a <<< (n + 1) % 2 = 0 := by
      rw [Nat.shiftLeft_eq, pow_succ, ← Nat.mul_assoc, Nat.mul_mod_left]
    have hor : (a <<< (n + 1) ||| b) % 2 = b % 2 := by
      have h1 := @Nat.or_mod_two_eq_one (a <<< (n + 1)) b
      have h2 := Nat.mod_two_eq_zero_or_one (a <<< (n + 1) ||| b)
      have h3 := Nat.mod_two_eq_zero_or_one b
      omega
    have hb2 : b / 2 < 2 ^ n := by
      rw [pow_succ] at hb
      omega
    calc a <<< (n + 1) ||| b
        = 2 * ((a <<< (n + 1) ||| b) / 2) + (a <<< (n + 1) ||| b) % 2 :=
          (Nat.div_add_mod _ 2).symm
      _ = 2 * (a <<< (n + 1) / 2 ||| b / 2) + b % 2 := by rw [Nat.or_div_two, hor]
      _ = 2 * (a <<< n ||| b / 2) + b % 2 := by rw [hdiv]
      _ = 2 * (a * 2 ^ n + b / 2) + b % 2 := by rw [ih a (b / 2) hb2]
      _ = a * (2 ^ n * 2) + (2 * (b / 2) + b % 2) := by ring
      _ = a * 2 ^ (n + 1) + b := by rw [pow_succ, Nat.div_add_mod]

/-- Masking with `0x7` is reduction mod 8. -/
theorem and_7_eq_mod (x : Nat) : x &&& 0x7 = x % 8 := by
  have h := Nat.and_pow_two_sub_one_eq_mod x 3
  norm_num at h
  exact h

/-- Masking with `0x3F` is reduction mod 64. -/
theorem and_63_eq_mod (x : Nat) : x &&& 0x3F = x % 64 := by
  have h := Nat.and_pow_two_sub_one_eq_mod x 6
  norm_num at h
  exact h

/-- Masking with `0x1FF` is reduction mod 512. -/
theorem and_511_eq_mod (x : Nat) : x &&& 0x1FF = x % 512 := by
  have h := Nat.and_pow_two_sub_one_eq_mod x 9
  norm_num at h
  exact h

/-- Masking with `ADDR_MASK` is reduction mod `2 ^ 56`. -/
theorem and_addr_mask_eq_mod (x : Nat) : x &&& Ops.ADDR_MASK = x % 2 ^ 56 := by
  have h := Nat.and_pow_two_sub_one_eq_mod x 56
  have em : Ops.ADDR_MASK = 2 ^ 56 - 1 := by norm_num [Ops.ADDR_MASK, Nat.shiftLeft_eq]
  rw [em]
  exact h

/-- Closed form of `Ops.encode_xy`: disjoint fields, so the packed word is a
sum of the masked fields at their bit positions. -/
theorem Ops.encode_xy_eq (addr reg : Nat) (pair : Bool) :
    Ops.encode_xy addr reg pair
      = pair.toNat * 2 ^ 62 + reg % 8 * 2 ^ 56 + addr % 2 ^ 56 := by
  unfold Ops.encode_xy
  rw [and_7_eq_mod, and_addr_mask_eq_mod, Nat.or_assoc,
    shiftLeft_or_eq_add 56 (reg % 8) (addr % 2 ^ 56) (Nat.mod_lt _ (by norm_num))]
  have hb1 : reg % 8 * 2 ^ 56 + addr % 2 ^ 56 < 2 ^ 62 := by
    have h1 : reg % 8 < 8 := Nat.mod_lt _ (by norm_num)
    have h2 : addr % 2 ^ 56 < 2 ^ 56 := Nat.mod_lt _ (by norm_num)
    have h3 : reg % 8 * 2 ^ 56 ≤ 7 * 2 ^ 56 := Nat.mul_le_mul_right _ (by omega)
    norm_num at h2 h3 ⊢
    omega
  rw [shiftLeft_or_eq_add 62 _ _ hb1]
  ring

/-- Closed form of `Ops.encode_z`. -/
theorem Ops.encode_z_eq (addr row : Nat) (pair : Bool) :
    Ops.encode_z addr row pair
      = pair.toNat * 2 ^ 62 + row % 64 * 2 ^ 56 + addr % 2 ^ 56 := by
  unfold Ops.encode_z
  rw [and_63_eq_mod, and_addr_mask_eq_mod, Nat.or_assoc,
    shiftLeft_or_eq_add 56 (row % 64) (addr % 2 ^ 56) (Nat.mod_lt _ (by norm_num))]
  have hb1 : row % 64 * 2 ^ 56 + addr % 2 ^ 56 < 2 ^ 62 := by
    have h1 : row % 64 < 64 := Nat.mod_lt _ (by norm_num)
    have h2 : addr % 2 ^ 56 < 2 ^ 56 := Nat.mod_lt _ (by norm_num)
    have h3 : row % 64 * 2 ^ 56 ≤ 63 * 2 ^ 56 := Nat.mul_le_mul_right _ (by omega)
    norm_num at h2 h3 ⊢
    omega
  rw [shiftLeft_or_eq_add 62 _ _ hb1]
  ring

/-- Closed form of `Ops.encode_fma`. -/
theorem Ops.encode_fma_eq (x_off y_off z_row : Nat) (vm : Bool) :
    Ops.encode_fma x_off y_off z_row vm
      = vm.toNat * 2 ^ 63 + z_row % 64 * 2 ^ 20 + x_off % 512 * 2 ^ 10 + y_off % 512 := by
  unfold Ops.encode_fma
  rw [and_63_eq_mod, and_511_eq_mod, and_511_eq_mod, Nat.or_assoc, Nat.or_assoc]
  have hy : y_off % 512 < 2 ^ 10 := by
    have : y_off % 512 < 512 := Nat.mod_lt _ (by norm_num)
    omega
  rw [shiftLeft_or_eq_add 10 (x_off % 512) (y_off % 512) hy]
  have hb1 : x_off % 512 * 2 ^ 10 + y_off % 512 < 2 ^ 20 := by
    have h1 : x_off % 512 * 2 ^ 10 ≤ 511 * 2 ^ 10 :=
      Nat.mul_le_mul_right _ (by omega)
    have h2 : y_off % 512 < 512 := Nat.mod_lt _ (by norm_num)
    norm_num at h1 ⊢
    omega
  rw [shiftLeft_or_eq_add 20 (z_row % 64) _ hb1]
  have hb2 : z_row % 64 * 2 ^ 20 + (x_off % 512 * 2 ^ 10 + y_off % 512) < 2 ^ 63 := by
    have h1 : z_row % 64 * 2 ^ 20 ≤ 63 * 2 ^ 20 := Nat.mul_le_mul_right _ (by omega)
    norm_num at h1 hb1 ⊢
    omega
  rw [shiftLeft_or_eq_add 63 _ _ hb2]
  ring

/-- C2: the operand encoders are total pure functions that mask every field
to its documented width: `encode_xy` packs the pair flag at bit 62,
`reg mod 8` in the 3 bits at 56 and `addr mod 2^56` below; `encode_z` packs
`row mod 64` at bits 56..61; `encode_fma` packs the vector-mode flag at bit
63, `z_row mod 64` at bits 20..25, `x_off mod 512` at bits 10..18 and
`y_off mod 512` at bits 0..8; out-of-range inputs are silently truncated, so
arguments that agree modulo the field widths give equal operands. -/
theorem C2_encoders_mask_and_pack :
    (∀ addr reg : Nat, ∀ pair : Bool,
      Ops.encode_xy addr reg pair
          = pair.toNat * 2 ^ 62 + reg % 8 * 2 ^ 56 + addr % 2 ^ 56
        ∧ Ops.encode_xy addr reg pair = Ops.encode_xy (addr % 2 ^ 56) (reg % 8) pair)
    ∧ (∀ addr row : Nat, ∀ pair : Bool,
      Ops.encode_z addr row pair
          = pair.toNat * 2 ^ 62 + row % 64 * 2 ^ 56 + addr % 2 ^ 56
        ∧ Ops.encode_z addr row pair = Ops.encode_z (addr % 2 ^ 56) (row % 64) pair)
    ∧ (∀ x_off y_off z_row : Nat, ∀ vm : Bool,
      Ops.encode_fma x_off y_off z_row vm
          = vm.toNat * 2 ^ 63 + z_row % 64 * 2 ^ 20 + x_off % 512 * 2 ^ 10 + y_off % 512
        ∧ Ops.encode_fma x_off y_off z_row vm
          = Ops.encode_fma (x_off % 512) (y_off % 512) (z_row % 64) vm) := by
  refine ⟨fun addr reg pair => ⟨Ops.encode_xy_eq addr reg pair, ?_⟩,
    fun addr row pair => ⟨Ops.encode_z_eq addr row pair, ?_⟩,
    fun x_off y_off z_row vm => ⟨Ops.encode_fma_eq x_off y_off z_row vm, ?_⟩⟩
  · rw [Ops.encode_xy_eq, Ops.encode_xy_eq]
    omega
  · rw [Ops.encode_z_eq, Ops.encode_z_eq]
    omega
  · rw [Ops.encode_fma_eq, Ops.encode_fma_eq]
    omega

/-- C3: every raw wrapper emits `AMX_OP_BASE + (opcode << 5)` with the fixed
opcode table (ldx=0 .. genlut=22); enable and disable share opcode 17 and
differ only in the low bit, and each is preceded by exactly three no-ops. -/
theorem C3_opcode_table :
    AMX_OP_BASE = 0x00201000
    ∧ amx_ldx_word = 0x00201000 + (0 <<< 5)
    ∧ amx_ldy_word = 0x00201000 + (1 <<< 5)
    ∧ amx_stx_word = 0x00201000 + (2 <<< 5)
    ∧ amx_sty_word = 0x00201000 + (3 <<< 5)
    ∧ amx_ldz_word = 0x00201000 + (4 <<< 5)
    ∧ amx_stz_word = 0x00201000 + (5 <<< 5)
    ∧ amx_ldzi_word = 0x00201000 + (6 <<< 5)
    ∧ amx_stzi_word = 0x00201000 + (7 <<< 5)
    ∧ amx_extrx_word = 0x00201000 + (8 <<< 5)
    ∧ amx_extry_word = 0x00201000 + (9 <<< 5)
    ∧ amx_fma64_word = 0x00201000 + (10 <<< 5)
    ∧ amx_fms64_word = 0x00201000 + (11 <<< 5)
    ∧ amx_fma32_word = 0x00201000 + (12 <<< 5)
    ∧ amx_fms32_word = 0x00201000 + (13 <<< 5)
    ∧ amx_mac16_word = 0x00201000 + (14 <<< 5)
    ∧ amx_fma16_word = 0x00201000 + (15 <<< 5)
    ∧ amx_fms16_word = 0x00201000 + (16 <<< 5)
    ∧ amx_vecint_word = 0x00201000 + (18 <<< 5)
    ∧ amx_vecfp_word = 0x00201000 + (19 <<< 5)
    ∧ amx_matint_word = 0x00201000 + (20 <<< 5)
    ∧ amx_matfp_word = 0x00201000 + (21 <<< 5)
    ∧ amx_genlut_word = 0x00201000 + (22 <<< 5)
    ∧ amx_set_asm = [Asm.nop, Asm.nop, Asm.nop, Asm.insn (0x00201000 + (17 <<< 5))]
    ∧ amx_clr_asm = [Asm.nop, Asm.nop, Asm.nop, Asm.insn (0x00201000 + (17 <<< 5) + 1)]
    ∧ (0x00201000 + (17 <<< 5)) % 2 = 0
    ∧ amx_set_asm.take 3 = [Asm.nop, Asm.nop, Asm.nop]
    ∧ amx_clr_asm.take 3 = [Asm.nop, Asm.nop, Asm.nop] := by
  decide

/-- C6: guard construction fails exactly when the probe reports unavailable:
`try_new` returns `None` iff `detect()` is `None`, `new` panics iff
`detect()` is `None`, and otherwise both issue the enable sequence. -/
theorem C6_guard_construction (d : Option AmxVersion) :
    (AmxGuard.try_new d = none ↔ d = none)
    ∧ (AmxGuard.new d = none ↔ d = none)
    ∧ (d = none
        ∨ (AmxGuard.try_new d = some amx_set_asm ∧ AmxGuard.new d = some amx_set_asm)) := by
  cases d <;> simp [AmxGuard.try_new, AmxGuard.new, is_available]

/-- C8: the two near-duplicate surfaces agree extensionally: the private
encoders in lib.rs equal the encoders in ops.rs on all inputs, and the two
copies of `detect_internal` compute the same classification of the brand
string. -/
theorem C8_duplicate_surfaces_agree :
    (∀ addr reg : Nat, ∀ pair : Bool,
        LibOps.encode_xy_ldst addr reg pair = Ops.encode_xy addr reg pair)
    ∧ (∀ addr row : Nat, ∀ pair : Bool,
        LibOps.encode_z_ldst addr row pair = Ops.encode_z addr row pair)
    ∧ (∀ x_off y_off z_row : Nat, ∀ vm : Bool,
        LibOps.encode_fma x_off y_off z_row vm = Ops.encode_fma x_off y_off z_row vm)
    ∧ ∀ brand? : Option String, Lib.detect_internal brand? = Detect.detect_internal brand? :=
  ⟨fun _ _ _ => rfl, fun _ _ _ => rfl, fun _ _ _ _ => rfl, fun _ => rfl⟩

/-- Row-major index decomposition is injective below the row length. -/
theorem rowcol_inj {n r c r' c' : Nat} (hc : c < n) (hc' : c' < n)
    (h : r * n + c = r' * n + c') : r = r' ∧ c = c' := by
  have hn : 0 < n := Nat.pos_of_ne_zero (by omega)
  have h1 : (r * n + c) / n = r := by
    rw [Nat.mul_comm r n, Nat.mul_add_div hn, Nat.div_eq_of_lt hc, Nat.add_zero]
  have h2 : (r' * n + c') / n = r' := by
    rw [Nat.mul_comm r' n, Nat.mul_add_div hn, Nat.div_eq_of_lt hc', Nat.add_zero]
  have hr : r = r' := by rw [← h1, ← h2, h]
  subst hr
  exact ⟨rfl, by omega⟩

/-- A fold whose steps do not touch the output buffer leaves it unchanged. -/
theorem foldl_c_inv {α : Type} (g : α → St → St) (h : ∀ x s, (g x s).c = s.c) :
    ∀ (L : List α) (s : St), (L.foldl (fun s x => g x s) s).c = s.c := by
  intro L
  induction L with
  | nil => intro s; rfl
  | cons x L ih => intro s; rw [List.foldl_cons, ih, h]

/-- A fold whose steps preserve the buffer length preserves it. -/
theorem foldl_len_inv {α : Type} (g : α → St → St) (h : ∀ x s, (g x s).c.len = s.c.len) :
    ∀ (L : List α) (s : St), (L.foldl (fun s x => g x s) s).c.len = s.c.len := by
  intro L
  induction L with
  | nil => intro s; rfl
  | cons x L ih => intro s; rw [List.foldl_cons, ih, h]

/-- A fold whose steps preserve one buffer cell preserves it. -/
theorem foldl_data_inv {α : Type} (g : α → St → St) (idx : Nat) :
    ∀ L : List α, (∀ x ∈ L, ∀ s, (g x s).c.data idx = s.c.data idx) →
      ∀ s : St, (L.foldl (fun s x => g x s) s).c.data idx = s.c.data idx := by
  intro L
  induction L with
  | nil => intro _ s; rfl
  | cons x L ih =>
    intro h s
    rw [List.foldl_cons, ih (fun x hx => h x (List.mem_cons_of_mem _ hx)),
      h x (List.mem_cons_self _ _)]

/-- A fold whose steps preserve the count of event `e` preserves it. -/
theorem foldl_count_inv {α : Type} (g : α → St → St) (e : Event)
    (h : ∀ x s, (g x s).tr.count e = s.tr.count e) :
    ∀ (L : List α) (s : St), (L.foldl (fun s x => g x s) s).tr.count e = s.tr.count e := by
  intro L
  induction L with
  | nil => intro s; rfl
  | cons x L ih => intro s; rw [List.foldl_cons, ih, h]

/-- Projections of one seed-loop step. -/
theorem seedRow_c (n i j row : Nat) (s : St) : (Sgemm.seedRow n i j row s).c = s.c := rfl

theorem seedRow_x (n i j row : Nat) (s : St) : (Sgemm.seedRow n i j row s).m.x = s.m.x := rfl

theorem seedRow_y (n i j row : Nat) (s : St) : (Sgemm.seedRow n i j row s).m.y = s.m.y := rfl

theorem seedRow_z (n i j row : Nat) (s : St) (r : Fin 64) :
    (Sgemm.seedRow n i j row s).m.z r
      = if r.val = row * 4 % 64 then Sgemm.seedVec s.c n i j row else s.m.z r := rfl

/-- After the first `m ≤ 16` seed-loop iterations, Z row `4·row` holds the
scratch image of C-tile row `row` for each `row < m`, and nothing else has
changed. -/
theorem seed_aux (n i j : Nat) (s : St) :
    ∀ m : Nat, m ≤ 16 →
      ((List.range m).foldl (fun s row => Sgemm.seedRow n i j row s) s).c = s.c
      ∧ ((List.range m).foldl (fun s row => Sgemm.seedRow n i j row s) s).m.x = s.m.x
      ∧ ((List.range m).foldl (fun s row => Sgemm.seedRow n i j row s) s).m.y = s.m.y
      ∧ ∀ r : Fin 64,
          ((List.range m).foldl (fun s row => Sgemm.seedRow n i j row s) s).m.z r
            = if r.val % 4 = 0 ∧ r.val / 4 < m
              then Sgemm.seedVec s.c n i j (r.val / 4)
              else s.m.z r := by
  intro m
  induction m with
  | zero =>
    intro _
    refine ⟨rfl, rfl, rfl, fun r => ?_⟩
    simp
  | succ m ih =>
    intro hm
    obtain ⟨hc, hx, hy, hz⟩ := ih (by omega)
    rw [List.range_succ, List.foldl_append]
    simp only [List.foldl_cons, List.foldl_nil]
    refine ⟨by rw [seedRow_c, hc], by rw [seedRow_x, hx], by rw [seedRow_y, hy], fun r => ?_⟩
    rw [seedRow_z, hc]
    have hm16 : m < 16 := by omega
    have e64 : m * 4 % 64 = m * 4 := Nat.mod_eq_of_lt (by omega)
    by_cases hr : r.val = m * 4 % 64
    · rw [if_pos hr]
      rw [if_pos ⟨by omega, by omega⟩]
      have hm4 : r.val / 4 = m := by omega
      rw [hm4]
    · rw [if_neg hr, hz r]
      by_cases hcond : r.val % 4 = 0 ∧ r.val / 4 < m
      · rw [if_pos hcond, if_pos ⟨hcond.1, by omega⟩]
      · rw [if_neg hcond, if_neg (by omega)]

/-- Loading Y register 0 makes Y0 the loaded data. -/
theorem ldy_y0 (m : Machine) (v : Fin 16 → Val) : (m.ldy v 0).y 0 = v := by
  simp [Machine.ldy]

/-- Loading X register 0 makes X0 the loaded data. -/
theorem ldx_x0 (m : Machine) (v : Fin 16 → Val) : (m.ldx v 0).x 0 = v := by
  simp [Machine.ldx]

/-- The outer-product FMA adds `Y0[p] * X0[q]` to `Z[4p][q]`. -/
theorem fma32_z4 (m : Machine) (p q : Fin 16) (r : Fin 64) (hr : r.val = p.val * 4) :
    m.fma32.z r q = m.z r q + m.y 0 p * m.x 0 q := by
  simp only [Machine.fma32]
  rw [if_pos (by omega)]
  congr 2
  exact congrArg (m.y 0) (Fin.ext (by show r.val / 4 = p.val; omega))

/-- One accumulate step leaves the output buffer alone. -/
theorem accumStep_c (a b : Slice) (n i j k kk : Nat) (s : St) :
    (Sgemm.accumStep a b n i j k kk s).c = s.c := rfl

/-- One accumulate step adds the outer-product contribution of reduction
index `k + kk` to `Z[4p][q]`. -/
theorem accumStep_z4 (a b : Slice) (n i j k kk : Nat) (s : St) (p q : Fin 16) (r : Fin 64)
    (hr : r.val = p.val * 4) :
    (Sgemm.accumStep a b n i j k kk s).m.z r q
      = s.m.z r q + Sgemm.aCol a n i (k + kk) p * Sgemm.bRow b n j (k + kk) q := by
  unfold Sgemm.accumStep
  show (((s.m.ldy _ 0).ldx _ 0).fma32).z r q = _
  rw [fma32_z4 _ p q r hr]
  have hzz : ((s.m.ldy (Sgemm.aCol a n i (k + kk)) 0).ldx (Sgemm.bRow b n j (k + kk)) 0).z
      = s.m.z := rfl
  have hyy : ((s.m.ldy (Sgemm.aCol a n i (k + kk)) 0).ldx (Sgemm.bRow b n j (k + kk)) 0).y
      = (s.m.ldy (Sgemm.aCol a n i (k + kk)) 0).y := rfl
  rw [hzz, hyy, ldy_y0, ldx_x0]

/-- Effect of the inner accumulate loop on `Z[4p][q]`: it adds the partial
dot product over the reduction indices `k .. k + cnt - 1`. -/
theorem accumInner_z4 (a b : Slice) (n i j k : Nat) (p q : Fin 16) (r : Fin 64)
    (hr : r.val = p.val * 4) :
    ∀ (cnt : Nat) (s : St),
      ((List.range cnt).foldl (fun s kk => Sgemm.accumStep a b n i j k kk s) s).m.z r q
        = s.m.z r q
          + ∑ kk in Finset.range cnt,
              Sgemm.aCol a n i (k + kk) p * Sgemm.bRow b n j (k + kk) q := by
  intro cnt
  induction cnt with
  | zero => intro s; simp
  | succ cnt ih =>
    intro s
    rw [List.range_succ, List.foldl_append]
    simp only [List.foldl_cons, List.foldl_nil]
    rw [accumStep_z4 a b n i j k cnt _ p q r hr, ih s, Finset.sum_range_succ]
    ring

/-- Effect of the full accumulate phase on `Z[4p][q]`, for an arbitrary list
of reduction-tile origins. -/
theorem accumOuter_z4 (a b : Slice) (n i j : Nat) (p q : Fin 16) (r : Fin 64)
    (hr : r.val = p.val * 4) :
    ∀ (L : List Nat) (s : St),
      ((L.foldl (fun s k =>
          (List.range (min 16 (n - k))).foldl
            (fun s kk => Sgemm.accumStep a b n i j k kk s) s) s).m.z r q)
        = s.m.z r q
          + ((L.map (fun k => ∑ kk in Finset.range (min 16 (n - k)),
              Sgemm.aCol a n i (k + kk) p * Sgemm.bRow b n j (k + kk) q)).sum) := by
  intro L
  induction L with
  | nil => intro s; simp
  | cons k L ih =>
    intro s
    rw [List.foldl_cons, ih, accumInner_z4 a b n i j k p q r hr, List.map_cons, List.sum_cons]
    ring

/-- The accumulate phase never touches the output buffer. -/
theorem accum_c (a b : Slice) (n i j : Nat) (s : St) :
    (Sgemm.accum a b n i j s).c = s.c := by
  unfold Sgemm.accum
  exact foldl_c_inv _
    (fun k s => foldl_c_inv _ (fun kk s => accumStep_c a b n i j k kk s) _ s) _ s

/-- `tileOrigins 0` is empty. -/
theorem tileOrigins_zero : Sgemm.tileOrigins 0 = [] := rfl

/-- For `0 < n ≤ 16` there is a single tile at the origin. -/
theorem tileOrigins_small {n : Nat} (h1 : 0 < n) (h2 : n ≤ 16) :
    Sgemm.tileOrigins n = [0] := by
  unfold Sgemm.tileOrigins
  have e : (n + 15) / 16 = 1 := by omega
  rw [e]
  rfl

/-- For `n > 16`, the tile origins are `0` followed by the origins for
`n - 16`, shifted by 16. -/
theorem tileOrigins_step {n : Nat} (h : 16 < n) :
    Sgemm.tileOrigins n = 0 :: (Sgemm.tileOrigins (n - 16)).map (fun k => k + 16) := by
  unfold Sgemm.tileOrigins
  have e : (n + 15) / 16 = (n - 16 + 15) / 16 + 1 := by omega
  rw [e, List.range_succ_eq_map, List.map_cons, List.map_map, List.map_map]
  refine congrArg (0 :: ·) (List.map_congr_left fun t _ => ?_)
  simp [Function.comp]
  ring

/-- Membership in the tile-origin list. -/
theorem tileOrigins_mem {n k : Nat} : k ∈ Sgemm.tileOrigins n ↔ k % 16 = 0 ∧ k < n := by
  unfold Sgemm.tileOrigins
  simp only [List.mem_map, List.mem_range]
  constructor
  · rintro ⟨t, ht, rfl⟩
    omega
  · rintro ⟨h16, hk⟩
    exact ⟨k / 16, by omega, by omega⟩

/-- The tile-origin list has no duplicates. -/
theorem tileOrigins_nodup (n : Nat) : (Sgemm.tileOrigins n).Nodup :=
  (List.nodup_range _).map (fun a b h => by omega)

/-- Summing the clipped 16-wide reduction tiles covers `0 .. n - 1` exactly
once: the tiled double sum equals the full reduction sum. -/
theorem tile_sum : ∀ n : Nat, ∀ f : Nat → Val,
    ((Sgemm.tileOrigins n).map
        (fun k => ∑ kk in Finset.range (min 16 (n - k)), f (k + kk))).sum
      = ∑ m in Finset.range n, f m := by
  intro n
  induction n using Nat.strong_induction_on with
  | _ n ih =>
    intro f
    rcases Nat.eq_zero_or_pos n with hn0 | hnpos
    · subst hn0
      simp [tileOrigins_zero]
    rcases le_or_lt n 16 with hle | hgt
    · rw [tileOrigins_small hnpos hle, List.map_cons, List.map_nil, List.sum_cons,
        List.sum_nil, add_zero]
      have e : min 16 (n - 0) = n := by omega
      rw [e]
      refine Finset.sum_congr rfl fun kk _ => ?_
      rw [Nat.zero_add]
    · rw [tileOrigins_step hgt, List.map_cons, List.sum_cons, List.map_map]
      have e0 : min 16 (n - 0) = 16 := by omega
      rw [e0]
      have eshift :
          ((Sgemm.tileOrigins (n - 16)).map
            ((fun k => ∑ kk in Finset.range (min 16 (n - k)), f (k + kk)) ∘ (fun k => k + 16))).sum
            = ((Sgemm.tileOrigins (n - 16)).map
                (fun k => ∑ kk in Finset.range (min 16 (n - 16 - k)), (fun m => f (16 + m)) (k + kk))).sum := by
        refine congrArg List.sum (List.map_congr_left fun k _ => ?_)
        simp only [Function.comp]
        have e1 : min 16 (n - (k + 16)) = min 16 (n - 16 - k) := by omega
        rw [e1]
        refine Finset.sum_congr rfl fun kk _ => ?_
        have e2 : k + 16 + kk = 16 + (k + kk) := by omega
        rw [e2]
      rw [eshift, ih (n - 16) (by omega) (fun m => f (16 + m))]
      have esplit : n = 16 + (n - 16) := by omega
      rw [esplit, Finset.sum_range_add]
      have e3 : 16 + (n - 16) - 16 = n - 16 := by omega
      rw [e3]
      refine congrArg (· + _) (Finset.sum_congr rfl fun kk _ => ?_)
      rw [Nat.zero_add]

/-- `writeRow` preserves the slice length. -/
theorem writeRow_len (c : Slice) (start len : Nat) (v : Fin 16 → Val) :
    (writeRow c start len v).len = c.len := rfl

/-- Reading a cell that `writeRow` covered returns the written value. -/
theorem writeRow_hit (c : Slice) (start len : Nat) (v : Fin 16 → Val) (d : Nat)
    (hd : d < len) (hd16 : d < 16) :
    (writeRow c start len v).data (start + d) = v ⟨d, hd16⟩ := by
  simp only [writeRow]
  rw [dif_pos ⟨by omega, by omega⟩]
  exact congrArg v (Fin.ext (by show start + d - start = d; omega))

/-- Reading a cell outside the written range returns the old value. -/
theorem writeRow_miss (c : Slice) (start len : Nat) (v : Fin 16 → Val) (idx : Nat)
    (h : ¬(start ≤ idx ∧ idx - start < min len 16)) :
    (writeRow c start len v).data idx = c.data idx := by
  simp only [writeRow]
  rw [dif_neg h]

/-- Projections of one drain-loop step. -/
theorem drainRow_m (n i j row : Nat) (s : St) : (Sgemm.drainRow n i j row s).m = s.m := rfl

theorem drainRow_c (n i j row : Nat) (s : St) :
    (Sgemm.drainRow n i j row s).c
      = writeRow s.c ((i + row) * n + j) (min 16 (n - j)) (s.m.stz (row * 4)) := rfl

/-- After the first `m ≤ 16` drain-loop iterations: the machine is untouched,
the length is untouched, cell `(i+r, j+q)` holds `Z[4r][q]` for `r < m`, and
cells outside the drained region are untouched. -/
theorem drain_aux (n i j : Nat) (s : St) (hj : j < n) :
    ∀ m : Nat, m ≤ 16 →
      ((List.range m).foldl (fun s row => Sgemm.drainRow n i j row s) s).m = s.m
      ∧ ((List.range m).foldl (fun s row => Sgemm.drainRow n i j row s) s).c.len = s.c.len
      ∧ (∀ r q : Nat, ∀ hq16 : q < 16, r < m → q < min 16 (n - j) →
          ((List.range m).foldl (fun s row => Sgemm.drainRow n i j row s) s).c.data
              ((i + r) * n + j + q)
            = s.m.stz (r * 4) ⟨q, hq16⟩)
      ∧ (∀ idx : Nat,
          (∀ r q : Nat, r < m → q < min 16 (n - j) → idx ≠ (i + r) * n + j + q) →
          ((List.range m).foldl (fun s row => Sgemm.drainRow n i j row s) s).c.data idx
            = s.c.data idx) := by
  intro m
  induction m with
  | zero =>
    intro _
    exact ⟨rfl, rfl, fun r q hq16 hr hq => by omega, fun idx _ => rfl⟩
  | succ m ih =>
    intro hm
    obtain ⟨hmach, hlen, hhit, hmiss⟩ := ih (by omega)
    rw [List.range_succ, List.foldl_append]
    simp only [List.foldl_cons, List.foldl_nil]
    refine ⟨by rw [drainRow_m, hmach], by rw [drainRow_c, writeRow_len, hlen], ?_, ?_⟩
    · intro r q hq16 hr hq
      rcases Nat.lt_succ_iff_lt_or_eq.mp hr with hrm | hrm
      · rw [drainRow_c]
        rw [writeRow_miss]
        · exact hhit r q hq16 hrm hq
        · rintro ⟨hle, hlt⟩
          have hminq : min (min 16 (n - j)) 16 = min 16 (n - j) := by omega
          rw [hminq] at hlt
          have hq' : j + q < n := by omega
          have hd' : j + ((i + r) * n + j + q - ((i + m) * n + j)) < n := by omega
          have h' : (i + r) * n + (j + q)
              = (i + m) * n + (j + ((i + r) * n + j + q - ((i + m) * n + j))) := by omega
          have := (rowcol_inj hq' hd' h').1
          omega
      · subst hrm
        rw [drainRow_c, hmach]
        exact writeRow_hit _ ((i + r) * n + j) (min 16 (n - j)) (s.m.stz (r * 4)) q hq hq16
    · intro idx hidx
      rw [drainRow_c, writeRow_miss]
      · exact hmiss idx (fun r q hr hq => hidx r q (by omega) hq)
      · rintro ⟨hle, hlt⟩
        have hminq : min (min 16 (n - j)) 16 = min 16 (n - j) := by omega
        rw [hminq] at hlt
        exact hidx m (idx - ((i + m) * n + j)) (by omega) (by omega) (by omega)

/-- One tile iteration adds this tile's full dot products to its own clipped
output region. -/
theorem tile_hit (a b : Slice) (n i j : Nat) (s : St) (hj : j < n)
    (r q : Nat) (hr : r < min 16 (n - i)) (hq : q < min 16 (n - j)) (hq16 : q < 16) :
    (Sgemm.tile a b n i j s).c.data ((i + r) * n + j + q)
      = s.c.data ((i + r) * n + j + q)
        + ∑ m in Finset.range n, a.data ((i + r) * n + m) * b.data (m * n + j + q) := by
  have hr16 : r < 16 := by omega
  unfold Sgemm.tile Sgemm.drain
  obtain ⟨_, _, hhit, _⟩ :=
    drain_aux n i j (Sgemm.accum a b n i j (Sgemm.seed n i j s)) hj (min 16 (n - i)) (by omega)
  rw [hhit r q hq16 hr hq]
  show (Sgemm.accum a b n i j (Sgemm.seed n i j s)).m.z ⟨r * 4 % 64, _⟩ ⟨q, hq16⟩ = _
  unfold Sgemm.accum
  rw [accumOuter_z4 a b n i j ⟨r, hr16⟩ ⟨q, hq16⟩ ⟨r * 4 % 64, Nat.mod_lt _ (by norm_num)⟩
    (by show r * 4 % 64 = r * 4; omega)]
  obtain ⟨hsc, _, _, hsz⟩ := seed_aux n i j s (min 16 (n - i)) (by omega)
  show (Sgemm.seed n i j s).m.z _ _ + _ = _
  unfold Sgemm.seed
  rw [hsz ⟨r * 4 % 64, Nat.mod_lt _ (by norm_num)⟩]
  rw [if_pos ⟨by show r * 4 % 64 % 4 = 0; omega, by show r * 4 % 64 / 4 < min 16 (n - i); omega⟩]
  have er : (r * 4 % 64 : Nat) / 4 = r := by omega
  rw [er]
  show Sgemm.seedVec s.c n i j r ⟨q, hq16⟩ + _ = _
  rw [tile_sum n (fun m => Sgemm.aCol a n i m ⟨r, hr16⟩ * Sgemm.bRow b n j m ⟨q, hq16⟩)]
  have hseed : Sgemm.seedVec s.c n i j r ⟨q, hq16⟩ = s.c.data ((i + r) * n + j + q) := by
    simp only [Sgemm.seedVec]
    rw [if_pos (by show q < min 16 (n - j); omega)]
  rw [hseed]
  refine congrArg (_ + ·) (Finset.sum_congr rfl fun m _ => ?_)
  simp only [Sgemm.aCol, Sgemm.bRow]
  rw [if_pos (by show r < min 16 (n - i); omega), if_pos (by show q < min 16 (n - j); omega)]

/-- One tile iteration leaves cells outside its clipped region untouched. -/
theorem tile_miss (a b : Slice) (n i j : Nat) (s : St) (hj : j < n) (idx : Nat)
    (hidx : ∀ r q : Nat, r < min 16 (n - i) → q < min 16 (n - j) → idx ≠ (i + r) * n + j + q) :
    (Sgemm.tile a b n i j s).c.data idx = s.c.data idx := by
  unfold Sgemm.tile Sgemm.drain
  obtain ⟨_, _, _, hmiss⟩ :=
    drain_aux n i j (Sgemm.accum a b n i j (Sgemm.seed n i j s)) hj (min 16 (n - i)) (by omega)
  rw [hmiss idx hidx, accum_c]
  unfold Sgemm.seed
  rw [(seed_aux n i j s (min 16 (n - i)) (by omega)).1]

/-- One tile iteration preserves the output length. -/
theorem tile_len (a b : Slice) (n i j : Nat) (s : St) (hj : j < n) :
    (Sgemm.tile a b n i j s).c.len = s.c.len := by
  unfold Sgemm.tile Sgemm.drain
  obtain ⟨_, hlen, _, _⟩ :=
    drain_aux n i j (Sgemm.accum a b n i j (Sgemm.seed n i j s)) hj (min 16 (n - i)) (by omega)
  rw [hlen, accum_c]
  unfold Sgemm.seed
  rw [(seed_aux n i j s (min 16 (n - i)) (by omega)).1]

/-- A fold whose steps preserve one buffer cell except for a unique element
that adds `D` to it adds `D` exactly once. -/
theorem foldl_data_once {α : Type} (g : α → St → St) (idx : Nat) (D : Val) :
    ∀ (L : List α) (x0 : α), x0 ∈ L → L.Nodup →
      (∀ x ∈ L, x ≠ x0 → ∀ s, (g x s).c.data idx = s.c.data idx) →
      (∀ s, (g x0 s).c.data idx = s.c.data idx + D) →
      ∀ s, (L.foldl (fun s x => g x s) s).c.data idx = s.c.data idx + D := by
  intro L
  induction L with
  | nil => intro x0 hmem; cases hmem
  | cons x L ih =>
    intro x0 hmem hnd hmiss hhit s
    rw [List.foldl_cons]
    by_cases hx : x = x0
    · subst hx
      have hnotin : x ∉ L := (List.nodup_cons.mp hnd).1
      rw [foldl_data_inv g idx L
        (fun y hy s => hmiss y (List.mem_cons_of_mem _ hy) (fun he => hnotin (he ▸ hy)) s)
        (g x s), hhit s]
    · have hmem' : x0 ∈ L := by
        rcases List.mem_cons.mp hmem with h | h
        · exact absurd h.symm hx
        · exact h
      rw [ih x0 hmem' (List.nodup_cons.mp hnd).2
        (fun y hy hne s => hmiss y (List.mem_cons_of_mem _ hy) hne s) hhit (g x s),
        hmiss x (List.mem_cons_self _ _) hx s]

/-- A tile whose origin is not the tile of `(row, col)` leaves that cell
untouched. -/
theorem tile_miss_of_ne (a b : Slice) (n row col : Nat) (hcol : col < n)
    (i j : Nat) (hi16 : i % 16 = 0) (hj16 : j % 16 = 0) (hjlt : j < n)
    (hne : ¬(i = row - row % 16 ∧ j = col - col % 16)) (s : St) :
    (Sgemm.tile a b n i j s).c.data (row * n + col) = s.c.data (row * n + col) := by
  refine tile_miss a b n i j s hjlt _ (fun r q hr hq heq => ?_)
  have h1 : j + q < n := by omega
  have h' : row * n + col = (i + r) * n + (j + q) := by omega
  obtain ⟨hr', hc'⟩ := rowcol_inj hcol h1 h'
  exact hne ⟨by omega, by omega⟩

/-- A tile iteration preserves the output length (no side conditions). -/
theorem tile_len_any (a b : Slice) (n i j : Nat) (s : St) :
    (Sgemm.tile a b n i j s).c.len = s.c.len := by
  unfold Sgemm.tile Sgemm.drain
  rw [foldl_len_inv (fun row s => Sgemm.drainRow n i j row s) (fun row s => rfl) _ _, accum_c]
  unfold Sgemm.seed
  rw [(seed_aux n i j s (min 16 (n - i)) (by omega)).1]

/-- The double tile loop adds each cell's full dot product to it exactly
once. -/
theorem tiles_data (a b : Slice) (n : Nat) (s : St) (row col : Nat)
    (hrow : row < n) (hcol : col < n) :
    (Sgemm.tiles a b n s).c.data (row * n + col)
      = s.c.data (row * n + col)
        + ∑ m in Finset.range n, a.data (row * n + m) * b.data (m * n + col) := by
  have hi0mem : (row - row % 16) ∈ Sgemm.tileOrigins n := tileOrigins_mem.mpr ⟨by omega, by omega⟩
  have hj0mem : (col - col % 16) ∈ Sgemm.tileOrigins n := tileOrigins_mem.mpr ⟨by omega, by omega⟩
  have hhit : ∀ s' : St,
      (Sgemm.tile a b n (row - row % 16) (col - col % 16) s').c.data (row * n + col)
        = s'.c.data (row * n + col)
          + ∑ m in Finset.range n, a.data (row * n + m) * b.data (m * n + col) := by
    intro s'
    have h := tile_hit a b n (row - row % 16) (col - col % 16) s' (by omega)
      (row % 16) (col % 16) (by omega) (by omega) (by omega)
    have e1 : row - row % 16 + row % 16 = row := by omega
    rw [e1] at h
    have e2 : row * n + (col - col % 16) + col % 16 = row * n + col := by omega
    rw [e2] at h
    have e3 : ∀ m : Nat, m * n + (col - col % 16) + col % 16 = m * n + col := fun m => by omega
    simp only [e3] at h
    exact h
  unfold Sgemm.tiles
  refine foldl_data_once
    (fun i s => (Sgemm.tileOrigins n).foldl (fun s j => Sgemm.tile a b n i j s) s)
    (row * n + col) _ (Sgemm.tileOrigins n) (row - row % 16) hi0mem (tileOrigins_nodup n)
    ?_ ?_ s
  · intro i hi hine s'
    refine foldl_data_inv _ _ _ (fun j hj s'' => ?_) s'
    have him := tileOrigins_mem.mp hi
    have hjm := tileOrigins_mem.mp hj
    exact tile_miss_of_ne a b n row col hcol i j him.1 hjm.1 hjm.2
      (by rintro ⟨h1, h2⟩; exact hine h1) s''
  · intro s'
    refine foldl_data_once (fun j s => Sgemm.tile a b n (row - row % 16) j s)
      (row * n + col) _ (Sgemm.tileOrigins n) (col - col % 16) hj0mem (tileOrigins_nodup n)
      ?_ hhit s'
    intro j hj hjne s''
    have hjm := tileOrigins_mem.mp hj
    exact tile_miss_of_ne a b n row col hcol (row - row % 16) j (by omega) hjm.1 hjm.2
      (by rintro ⟨h1, h2⟩; exact hjne h2) s''

/-- The double tile loop preserves the output length. -/
theorem tiles_len (a b : Slice) (n : Nat) (s : St) :
    (Sgemm.tiles a b n s).c.len = s.c.len := by
  unfold Sgemm.tiles
  exact foldl_len_inv _
    (fun i s => foldl_len_inv _ (fun j s => tile_len_any a b n i j s) _ s) _ s

/-- Seed-loop steps issue no enable/disable. -/
theorem seedRow_count (n i j row : Nat) (s : St) (e : Event)
    (he : e = Event.set ∨ e = Event.clr) :
    (Sgemm.seedRow n i j row s).tr.count e = s.tr.count e := by
  show (s.tr ++ [Event.ldz (row * 4)]).count e = s.tr.count e
  have h0 : List.count e [Event.ldz (row * 4)] = 0 :=
    List.count_eq_zero.mpr (by rcases he with h | h <;> subst h <;> simp)
  rw [List.count_append, h0, Nat.add_zero]

/-- Accumulate-loop steps issue no enable/disable. -/
theorem accumStep_count (a b : Slice) (n i j k kk : Nat) (s : St) (e : Event)
    (he : e = Event.set ∨ e = Event.clr) :
    (Sgemm.accumStep a b n i j k kk s).tr.count e = s.tr.count e := by
  show (s.tr ++ [Event.ldy, Event.ldx, Event.fma32]).count e = s.tr.count e
  have h0 : List.count e [Event.ldy, Event.ldx, Event.fma32] = 0 :=
    List.count_eq_zero.mpr (by rcases he with h | h <;> subst h <;> simp)
  rw [List.count_append, h0, Nat.add_zero]

/-- Drain-loop steps issue no enable/disable. -/
theorem drainRow_count (n i j row : Nat) (s : St) (e : Event)
    (he : e = Event.set ∨ e = Event.clr) :
    (Sgemm.drainRow n i j row s).tr.count e = s.tr.count e := by
  show (s.tr ++ [Event.stz (row * 4)]).count e = s.tr.count e
  have h0 : List.count e [Event.stz (row * 4)] = 0 :=
    List.count_eq_zero.mpr (by rcases he with h | h <;> subst h <;> simp)
  rw [List.count_append, h0, Nat.add_zero]

/-- The whole tile loop issues no enable/disable. -/
theorem tiles_count (a b : Slice) (n : Nat) (s : St) (e : Event)
    (he : e = Event.set ∨ e = Event.clr) :
    (Sgemm.tiles a b n s).tr.count e = s.tr.count e := by
  unfold Sgemm.tiles
  refine foldl_count_inv (fun i s => (Sgemm.tileOrigins n).foldl
    (fun s j => Sgemm.tile a b n i j s) s) e (fun i s => ?_) _ s
  refine foldl_count_inv (fun j s => Sgemm.tile a b n i j s) e (fun j s => ?_) _ s
  unfold Sgemm.tile Sgemm.drain Sgemm.accum Sgemm.seed
  rw [foldl_count_inv (fun row s => Sgemm.drainRow n i j row s) e
      (fun row s => drainRow_count n i j row s e he) _ _,
    foldl_count_inv _ e
      (fun k s => foldl_count_inv (fun kk s => Sgemm.accumStep a b n i j k kk s) e
        (fun kk s => accumStep_count a b n i j k kk s e he) _ s) _ _,
    foldl_count_inv (fun row s => Sgemm.seedRow n i j row s) e
      (fun row s => seedRow_count n i j row s e he) _ _]

/-- `enabledAfter` distributes over trace concatenation. -/
theorem enabledAfter_append (init : Bool) (l1 l2 : List Event) :
    enabledAfter init (l1 ++ l2) = enabledAfter (enabledAfter init l1) l2 :=
  List.foldl_append _ _ _ _

/-- A trace ending in a disable leaves the coprocessor disabled. -/
theorem enabledAfter_clr (init : Bool) (l : List Event) :
    enabledAfter init (l ++ [Event.clr]) = false := by
  rw [enabledAfter_append]
  rfl

/-- `fill0` preserves the length. -/
theorem fill0_len (c : Slice) : (fill0 c).len = c.len := rfl

/-- `fill0` zeroes every cell inside the slice. -/
theorem fill0_data_lt (c : Slice) (idx : Nat) (h : idx < c.len) : (fill0 c).data idx = 0 := by
  simp only [fill0]
  rw [if_pos h]

/-- When all preconditions hold and `n ≠ 0`, `matmul` runs the tile loop
between one enable and one disable. -/
theorem matmul_main (m : Machine) (d : Option AmxVersion) (a b c : Slice) (n : Nat)
    (hd : is_available d = true) (ha : a.len = n * n) (hb : b.len = n * n)
    (hc : c.len = n * n) (hn : n ≠ 0) :
    Sgemm.matmul m d a b c n
      = ⟨none, (Sgemm.tiles a b n ⟨m, fill0 c, [Event.set]⟩).c,
          (Sgemm.tiles a b n ⟨m, fill0 c, [Event.set]⟩).tr ++ [Event.clr]⟩ := by
  unfold Sgemm.matmul
  rw [if_neg (by rw [hd]; simp), if_neg (by omega), if_neg (by omega), if_neg (by omega),
    if_neg hn]

/-- `matmul` returns without panicking exactly when AMX is available and all
three slices have length `n * n`. -/
theorem matmul_panicked_iff (m : Machine) (d : Option AmxVersion) (a b c : Slice) (n : Nat) :
    ((Sgemm.matmul m d a b c n).panicked = none
      ↔ (is_available d = true ∧ a.len = n * n ∧ b.len = n * n ∧ c.len = n * n)) := by
  unfold Sgemm.matmul
  split_ifs with h1 h2 h3 h4 h5 <;> simp_all

/-- On the panic path, `matmul` leaves the output untouched and issues no
instruction. -/
theorem matmul_panic_path (m : Machine) (d : Option AmxVersion) (a b c : Slice) (n : Nat) :
    (Sgemm.matmul m d a b c n).panicked = none
      ∨ ((Sgemm.matmul m d a b c n).c = c ∧ (Sgemm.matmul m d a b c n).tr = []) := by
  unfold Sgemm.matmul
  split_ifs <;> simp

/-- The central correctness fact: under the documented hardware model the
kernel computes exact dot products. -/
theorem matmul_data (m : Machine) (d : Option AmxVersion) (a b c : Slice) (n : Nat)
    (hd : is_available d = true) (ha : a.len = n * n) (hb : b.len = n * n)
    (hc : c.len = n * n) (row col : Nat) (hrow : row < n) (hcol : col < n) :
    (Sgemm.matmul m d a b c n).c.data (row * n + col)
      = ∑ k in Finset.range n, a.data (row * n + k) * b.data (k * n + col) := by
  have hn : n ≠ 0 := by omega
  rw [matmul_main m d a b c n hd ha hb hc hn]
  show (Sgemm.tiles a b n ⟨m, fill0 c, [Event.set]⟩).c.data (row * n + col) = _
  rw [tiles_data a b n _ row col hrow hcol]
  have e2 : (row + 1) * n = row * n + n := by ring
  have h1 : (row + 1) * n ≤ n * n := Nat.mul_le_mul_right n (by omega)
  have hlt : row * n + col < c.len := by
    rw [hc]
    omega
  show (fill0 c).data (row * n + col) + _ = _
  rw [fill0_data_lt c _ hlt, zero_add]

/-- The output slice keeps length `n * n`. -/
theorem matmul_len (m : Machine) (d : Option AmxVersion) (a b c : Slice) (n : Nat)
    (hd : is_available d = true) (ha : a.len = n * n) (hb : b.len = n * n)
    (hc : c.len = n * n) :
    (Sgemm.matmul m d a b c n).c.len = n * n := by
  by_cases hn : n = 0
  · subst hn
    unfold Sgemm.matmul
    rw [if_neg (by rw [hd]; simp), if_neg (by omega), if_neg (by omega), if_neg (by omega),
      if_pos rfl]
    exact hc
  · rw [matmul_main m d a b c n hd ha hb hc hn]
    show (Sgemm.tiles a b n ⟨m, fill0 c, [Event.set]⟩).c.len = n * n
    rw [tiles_len]
    exact hc

/-- Whenever `matmul` panics or `n = 0`, its trace is empty. -/
theorem matmul_tr_nil (m : Machine) (d : Option AmxVersion) (a b c : Slice) (n : Nat)
    (h : ¬(is_available d = true ∧ a.len = n * n ∧ b.len = n * n ∧ c.len = n * n ∧ n ≠ 0)) :
    (Sgemm.matmul m d a b c n).tr = [] := by
  unfold Sgemm.matmul
  split_ifs with h1 h2 h3 h4 h5 <;> try rfl
  exact absurd ⟨by simpa using h1, by omega, by omega, by omega, h5⟩ h

/-- C1: under the documented hardware model for `fma32(0,0,0,false)`,
`matmul` terminates without panicking and leaves in `c` the exact matrix
product of `a` and `b` — in particular within the claimed `1e-5` absolute
tolerance — and multiplying an identity matrix by `b` reproduces `b` within
`1e-5`. -/
theorem C1_tiled_matmul_correct (m : Machine) (d : Option AmxVersion) (a b c : Slice)
    (n : Nat) (hd : is_available d = true) (ha : a.len = n * n) (hb : b.len = n * n)
    (hc : c.len = n * n) (row col : Nat) (hrow : row < n) (hcol : col < n) :
    (Sgemm.matmul m d a b c n).panicked = none
    ∧ (Sgemm.matmul m d a b c n).c.data (row * n + col)
        = ∑ k in Finset.range n, a.data (row * n + k) * b.data (k * n + col)
    ∧ |(Sgemm.matmul m d a b c n).c.data (row * n + col)
        - ∑ k in Finset.range n, a.data (row * n + k) * b.data (k * n + col)| ≤ 1 / 100000
    ∧ (Sgemm.isIdentity a n →
        |(Sgemm.matmul m d a b c n).c.data (row * n + col) - b.data (row * n + col)|
          ≤ 1 / 100000) := by
  have hmain := matmul_data m d a b c n hd ha hb hc row col hrow hcol
  refine ⟨(matmul_panicked_iff m d a b c n).mpr ⟨hd, ha, hb, hc⟩, hmain, ?_, ?_⟩
  · rw [hmain]
    simp
  · intro hid
    rw [hmain]
    have hterm : ∀ k ∈ Finset.range n, a.data (row * n + k) * b.data (k * n + col)
        = (if row = k then b.data (k * n + col) else 0) := by
      intro k hk
      rw [hid row k hrow (Finset.mem_range.mp hk)]
      split_ifs <;> ring
    rw [Finset.sum_congr rfl hterm,
      Finset.sum_ite_eq (Finset.range n) row (fun k => b.data (k * n + col)),
      if_pos (Finset.mem_range.mpr hrow)]
    simp

/-- Witness for C1 at `n = 1`. -/
theorem C1_witness :
    (Sgemm.matmul mach0 (some AmxVersion.M1) oneSlice oneSlice fiveSlice 1).panicked = none
    ∧ (Sgemm.matmul mach0 (some AmxVersion.M1) oneSlice oneSlice fiveSlice 1).c.data
          (0 * 1 + 0)
        = ∑ k in Finset.range 1, oneSlice.data (0 * 1 + k) * oneSlice.data (k * 1 + 0)
    ∧ |(Sgemm.matmul mach0 (some AmxVersion.M1) oneSlice oneSlice fiveSlice 1).c.data
          (0 * 1 + 0)
        - ∑ k in Finset.range 1, oneSlice.data (0 * 1 + k) * oneSlice.data (k * 1 + 0)|
        ≤ 1 / 100000
    ∧ |(Sgemm.matmul mach0 (some AmxVersion.M1) oneSlice oneSlice fiveSlice 1).c.data
          (0 * 1 + 0) - oneSlice.data (0 * 1 + 0)| ≤ 1 / 100000 := by
  obtain ⟨h1, h2, h3, h4⟩ := C1_tiled_matmul_correct mach0 (some AmxVersion.M1)
    oneSlice oneSlice fiveSlice 1 rfl rfl rfl rfl 0 0 Nat.one_pos Nat.one_pos
  exact ⟨h1, h2, h3, h4 (fun i k hi hk => by
    interval_cases i <;> interval_cases k <;> norm_num [oneSlice])⟩

/-- C4: `matmul` panics exactly when AMX is unavailable or a slice length
differs from `n*n`, and on the panic path the output is untouched and no
instruction has been issued. -/
theorem C4_precondition_checks (m : Machine) (d : Option AmxVersion) (a b c : Slice)
    (n : Nat) :
    ((Sgemm.matmul m d a b c n).panicked = none
      ↔ (is_available d = true ∧ a.len = n * n ∧ b.len = n * n ∧ c.len = n * n))
    ∧ ((Sgemm.matmul m d a b c n).panicked = none
        ∨ ((Sgemm.matmul m d a b c n).c = c ∧ (Sgemm.matmul m d a b c n).tr = [])) :=
  ⟨matmul_panicked_iff m d a b c n, matmul_panic_path m d a b c n⟩

/-- On every input, `matmul` enables the coprocessor at most once, issues
exactly as many disables as enables, and leaves the coprocessor disabled on
every exit path; and dropping an `AmxGuard` issues exactly one disable
instruction. -/
theorem matmul_lifecycle_balanced (m : Machine) (d : Option AmxVersion) (a b c : Slice)
    (n : Nat) :
    (Sgemm.matmul m d a b c n).tr.count Event.set ≤ 1
    ∧ (Sgemm.matmul m d a b c n).tr.count Event.clr
        = (Sgemm.matmul m d a b c n).tr.count Event.set
    ∧ enabledAfter false (Sgemm.matmul m d a b c n).tr = false
    ∧ AmxGuard.drop.count (Asm.insn (AMX_OP_BASE + (17 <<< 5) + 1)) = 1 := by
  have hdrop : AmxGuard.drop.count (Asm.insn (AMX_OP_BASE + (17 <<< 5) + 1)) = 1 := by
    decide
  by_cases hmain : is_available d = true ∧ a.len = n * n ∧ b.len = n * n
      ∧ c.len = n * n ∧ n ≠ 0
  · obtain ⟨hd, ha, hb, hc, hn⟩ := hmain
    rw [matmul_main m d a b c n hd ha hb hc hn]
    have h1 : (Sgemm.tiles a b n ⟨m, fill0 c, [Event.set]⟩).tr.count Event.set = 1 := by
      rw [tiles_count a b n ⟨m, fill0 c, [Event.set]⟩ Event.set (Or.inl rfl)]
      rfl
    have h2 : (Sgemm.tiles a b n ⟨m, fill0 c, [Event.set]⟩).tr.count Event.clr = 0 := by
      rw [tiles_count a b n ⟨m, fill0 c, [Event.set]⟩ Event.clr (Or.inr rfl)]
      rfl
    refine ⟨?_, ?_, ?_, hdrop⟩
    · show ((Sgemm.tiles a b n ⟨m, fill0 c, [Event.set]⟩).tr ++ [Event.clr]).count
          Event.set ≤ 1
      rw [List.count_append, h1]
      decide
    · show ((Sgemm.tiles a b n ⟨m, fill0 c, [Event.set]⟩).tr ++ [Event.clr]).count
            Event.clr
          = ((Sgemm.tiles a b n ⟨m, fill0 c, [Event.set]⟩).tr ++ [Event.clr]).count
            Event.set
      rw [List.count_append, List.count_append, h1, h2]
      decide
    · exact enabledAfter_clr false _
  · rw [matmul_tr_nil m d a b c n hmain]
    exact ⟨by decide, by decide, rfl, hdrop⟩

/-- C7: with the preconditions satisfied, `matmul` at `n = 0` returns without
panicking, without issuing any instruction, and with `c` unchanged. -/
theorem C7_n_zero_noop (m : Machine) (d : Option AmxVersion) (a b c : Slice)
    (hd : is_available d = true) (ha : a.len = 0) (hb : b.len = 0) (hc : c.len = 0) :
    Sgemm.matmul m d a b c 0 = ⟨none, c, []⟩ := by
  unfold Sgemm.matmul
  rw [if_neg (by rw [hd]; simp), if_neg (by omega), if_neg (by omega), if_neg (by omega),
    if_pos rfl]

/-- Witness for C7. -/
theorem C7_witness :
    Sgemm.matmul mach0 (some AmxVersion.M1) emptySlice emptySlice emptySlice 0
      = ⟨none, emptySlice, []⟩ :=
  C7_n_zero_noop mach0 (some AmxVersion.M1) emptySlice emptySlice emptySlice rfl rfl rfl rfl

/-- C9: `sgemm_raw` never panics; with `size = 0` or AMX unavailable it
returns immediately with no instruction issued and the memory behind `c`
untouched, and otherwise it delegates to `matmul` on the three
`size*size` slices. -/
theorem C9_sgemm_raw_total (m : Machine) (d : Option AmxVersion)
    (a b c : Nat → Val) (size : Nat) :
    (Sgemm.sgemm_raw m d a b c size).panicked = none
    ∧ ((size ≠ 0 ∧ is_available d = true)
        ∨ Sgemm.sgemm_raw m d a b c size = ⟨none, c, []⟩)
    ∧ ((size = 0 ∨ is_available d = false)
        ∨ Sgemm.sgemm_raw m d a b c size
            = ⟨(Sgemm.matmul m d ⟨a, size * size⟩ ⟨b, size * size⟩
                  ⟨c, size * size⟩ size).panicked,
               (Sgemm.matmul m d ⟨a, size * size⟩ ⟨b, size * size⟩
                  ⟨c, size * size⟩ size).c.data,
               (Sgemm.matmul m d ⟨a, size * size⟩ ⟨b, size * size⟩
                  ⟨c, size * size⟩ size).tr⟩) := by
  by_cases hcond : size = 0 ∨ is_available d = false
  · have he : Sgemm.sgemm_raw m d a b c size = ⟨none, c, []⟩ := by
      unfold Sgemm.sgemm_raw
      rw [if_pos hcond]
    exact ⟨by rw [he], Or.inr he, Or.inl hcond⟩
  · have h1 : size ≠ 0 := fun h => hcond (Or.inl h)
    have h2 : is_available d = true := by
      rcases Bool.eq_false_or_eq_true (is_available d) with h | h
      · exact h
      · exact absurd (Or.inr h) hcond
    have hdeleg : Sgemm.sgemm_raw m d a b c size
        = ⟨(Sgemm.matmul m d ⟨a, size * size⟩ ⟨b, size * size⟩
              ⟨c, size * size⟩ size).panicked,
           (Sgemm.matmul m d ⟨a, size * size⟩ ⟨b, size * size⟩
              ⟨c, size * size⟩ size).c.data,
           (Sgemm.matmul m d ⟨a, size * size⟩ ⟨b, size * size⟩
              ⟨c, size * size⟩ size).tr⟩ := by
      unfold Sgemm.sgemm_raw
      rw [if_neg hcond]
    refine ⟨?_, Or.inl ⟨h1, h2⟩, Or.inr hdeleg⟩
    rw [hdeleg]
    exact (matmul_panicked_iff m d ⟨a, size * size⟩ ⟨b, size * size⟩
      ⟨c, size * size⟩ size).mpr ⟨h2, rfl, rfl, rfl⟩

/-- C10: the result of `matmul` does not depend on the initial contents of
the output buffer (nor on the initial register-file state). -/
theorem C10_result_independent_of_c (m m' : Machine) (d : Option AmxVersion)
    (a b c c' : Slice) (n : Nat) (hd : is_available d = true)
    (ha : a.len = n * n) (hb : b.len = n * n) (hc : c.len = n * n) (hc' : c'.len = n * n)
    (idx : Nat) (hidx : idx < n * n) :
    (Sgemm.matmul m d a b c n).c.len = (Sgemm.matmul m' d a b c' n).c.len
    ∧ (Sgemm.matmul m d a b c n).c.data idx = (Sgemm.matmul m' d a b c' n).c.data idx := by
  refine ⟨by rw [matmul_len m d a b c n hd ha hb hc,
    matmul_len m' d a b c' n hd ha hb hc'], ?_⟩
  rcases Nat.eq_zero_or_pos n with hn0 | hn
  · subst hn0
    simp at hidx
  have hrow : idx / n < n := by
    rw [Nat.div_lt_iff_lt_mul hn]
    exact hidx
  have hcol : idx % n < n := Nat.mod_lt _ hn
  have hsplit : idx = (idx / n) * n + idx % n := by
    have e1 := Nat.div_add_mod idx n
    have e2 : (idx / n) * n = n * (idx / n) := Nat.mul_comm _ _
    omega
  rw [hsplit, matmul_data m d a b c n hd ha hb hc _ _ hrow hcol,
    matmul_data m' d a b c' n hd ha hb hc' _ _ hrow hcol]

/-- Witness for C10. -/
theorem C10_witness :
    (Sgemm.matmul mach0 (some AmxVersion.M1) oneSlice oneSlice fiveSlice 1).c.len
        = (Sgemm.matmul mach0 (some AmxVersion.M1) oneSlice oneSlice sevenSlice 1).c.len
    ∧ (Sgemm.matmul mach0 (some AmxVersion.M1) oneSlice oneSlice fiveSlice 1).c.data 0
        = (Sgemm.matmul mach0 (some AmxVersion.M1) oneSlice oneSlice sevenSlice 1).c.data 0 :=
  C10_result_independent_of_c mach0 mach0 (some AmxVersion.M1) oneSlice oneSlice
    fiveSlice sevenSlice 1 rfl rfl rfl rfl rfl 0 Nat.one_pos
